import Mathlib

/-!
Verification of the track-change extension (accept/reject resolution engine,
track interceptor, composition state, timestamp quantization and command
surface) against its specification.

The document model is embedded shallowly: a document is a flat list of
characters, each carrying the list of marks attached to it.  This models a
single text block of the host document model (positions are character
offsets).  Mark ranges, mark addition/removal and range deletion are the
corresponding list operations.  The helpers getMarksBetween, isMarkActive
and getMarkRange model the external document-model queries the source calls
(per the spec these are consumed capabilities of the host model): ranges are
reported per maximal run of characters sharing one mark set, mirroring the
per-text-node reporting of the host model.
-/

namespace TrackChange

/-- Mark type names, as in the source. -/
def MARK_DELETION : String := "deletion"

/-- Mark type name for insertions, as in the source. -/
def MARK_INSERTION : String := "insertion"

/-- Operation name constants from the source. -/
def TRACK_COMMAND_ACCEPT : String := "accept"

/-- Bulk accept operation name. -/
def TRACK_COMMAND_ACCEPT_ALL : String := "accept-all"

/-- Reject operation name. -/
def TRACK_COMMAND_REJECT : String := "reject"

/-- Bulk reject operation name. -/
def TRACK_COMMAND_REJECT_ALL : String := "reject-all"

/-- Attributes carried by a tracked mark: author id, author display name and
the change date.  In the index.ts variant the user attributes are taken from
the options unchanged (possibly absent), hence Option String. -/
structure TrackAttrs where
  dataOpUserId : Option String
  dataOpUserNickname : Option String
  dataOpDate : Int
deriving DecidableEq, Repr

/-- A mark attached to document content: the two tracked kinds plus opaque
other marks of the host schema. -/
inductive TMark where
  | insertion (attrs : TrackAttrs)
  | deletion (attrs : TrackAttrs)
  | other (name : String)
deriving DecidableEq, Repr

/-- The name of the mark's type, as the source compares mark.type.name. -/
def markName : TMark → String
  | .insertion _ => MARK_INSERTION
  | .deletion _ => MARK_DELETION
  | .other n => n

/-- One character of the document together with its marks. -/
structure MChar where
  ch : Char
  marks : List TMark
deriving DecidableEq, Repr

/-- A document: flat list of marked characters. -/
abbrev Doc := List MChar

/-- Content of the document in the half-open range from f to t
(doc.slice of the host model). -/
def sliceDoc (f t : Nat) (doc : Doc) : Doc := (doc.drop f).take (t - f)

/-- tr.deleteRange f t: remove the content in the half-open range. -/
def deleteRange (f t : Nat) (doc : Doc) : Doc := doc.take f ++ doc.drop t

/-- tr.insert p frag: insert a fragment at position p. -/
def insertAt (p : Nat) (frag : Doc) (doc : Doc) : Doc :=
  doc.take p ++ frag ++ doc.drop p

/-- Remove every mark whose type has the given name from one character
(mark removal acts per mark type, as tr.removeMark does). -/
def removeMarkChar (typeName : String) (c : MChar) : MChar :=
  { c with marks := c.marks.filter (fun m => decide (markName m ≠ typeName)) }

/-- Helper for removeMarkRange carrying the current position. -/
def removeMarkAux (f t : Nat) (typeName : String) : Nat → Doc → Doc
  | _, [] => []
  | i, c :: rest =>
    (if f ≤ i ∧ i < t then removeMarkChar typeName c else c)
      :: removeMarkAux f t typeName (i + 1) rest

/-- tr.removeMark f t type: strip marks of the given type from the range. -/
def removeMarkRange (f t : Nat) (typeName : String) (doc : Doc) : Doc :=
  removeMarkAux f t typeName 0 doc

/-- Mark.addToSet: adding a mark replaces any existing mark of the same
type on the character. -/
def addMarkChar (m : TMark) (c : MChar) : MChar :=
  { c with marks := c.marks.filter (fun x => decide (markName x ≠ markName m)) ++ [m] }

/-- Helper for addMarkRange carrying the current position. -/
def addMarkAux (f t : Nat) (m : TMark) : Nat → Doc → Doc
  | _, [] => []
  | i, c :: rest =>
    (if f ≤ i ∧ i < t then addMarkChar m c else c) :: addMarkAux f t m (i + 1) rest

/-- tr.addMark f t m: add the mark to every character of the range. -/
def addMarkRange (f t : Nat) (m : TMark) (doc : Doc) : Doc :=
  addMarkAux f t m 0 doc

/-- A maximal run of consecutive characters sharing one mark set: this is a
text node of the host model. -/
structure Run where
  start : Nat
  stop : Nat
  marks : List TMark
deriving DecidableEq, Repr

/-- Decompose a document into its maximal constant-mark runs, starting at
position p. -/
def runsFrom : Nat → Doc → List Run
  | _, [] => []
  | p, c :: rest =>
    match runsFrom (p + 1) rest with
    | [] => [⟨p, p + 1, c.marks⟩]
    | r :: rs =>
      if c.marks = r.marks then ⟨p, r.stop, r.marks⟩ :: rs
      else ⟨p, p + 1, c.marks⟩ :: r :: rs

/-- A mark range as reported by the host model: one mark together with the
extent of the text node carrying it. -/
structure MarkRange where
  mark : TMark
  fromPos : Nat
  toPos : Nat
deriving DecidableEq, Repr

/-- getMarksBetween f t doc: every mark of every run touching the queried
range, reported with the run's full extent (the host model reports per-node
extents, not clamped to the query). -/
def getMarksBetween (f t : Nat) (doc : Doc) : List MarkRange :=
  ((runsFrom 0 doc).filter (fun r => decide (r.start < t ∧ f < r.stop))).flatMap
    (fun r => r.marks.map (fun m => ⟨m, r.start, r.stop⟩))

/-- Marks active at a collapsed cursor position: the marks of the character
before the cursor, or of the character after it when the cursor is at the
start (ResolvedPos.marks of the host model, left-biased). -/
def marksAtCursor (doc : Doc) (p : Nat) : List TMark :=
  if p = 0 then
    match doc with
    | [] => []
    | c :: _ => c.marks
  else
    match doc[p - 1]? with
    | some c => c.marks
    | none => []

/-- Editor state: current document and selection. -/
structure EditorState where
  doc : Doc
  selFrom : Nat
  selTo : Nat
deriving Repr

/-- isMarkActive for a collapsed selection: some mark of the given type name
is active at the cursor. -/
def isMarkActive (st : EditorState) (name : String) : Bool :=
  (marksAtCursor st.doc st.selFrom).any (fun m => decide (markName m = name))

/-- getMarkRange doc p typeName: the host model looks at the node at or
after position p; if it carries a mark of the given type, the range is that
mark's full contiguous extent (extended over adjacent characters carrying
the identical mark). -/
def getMarkRange (doc : Doc) (p : Nat) (typeName : String) : Option (Nat × Nat) :=
  match doc[p]? with
  | none => none
  | some c =>
    match c.marks.find? (fun m => decide (markName m = typeName)) with
    | none => none
    | some mk =>
      let l := p - ((doc.take p).reverse.takeWhile (fun d => decide (mk ∈ d.marks))).length
      let r := p + 1 + ((doc.drop (p + 1)).takeWhile (fun d => decide (mk ∈ d.marks))).length
      some (l, r)

/-- Scope resolution of changeTrack (source lines 149 to 174): collapsed
selection probes the mark to the left of the cursor and expands to its
range; accept-all and reject-all take the whole document and demote the
operation to accept and reject; otherwise the selection itself is used.
Returns the gathered mark ranges and the effective operation. -/
def gatherRanges (opType : String) (st : EditorState) : List MarkRange × String :=
  let f := st.selFrom
  let t := st.selTo
  if (opType = TRACK_COMMAND_ACCEPT ∨ opType = TRACK_COMMAND_REJECT) ∧ f = t then
    let isInsertBeforeCursor := isMarkActive st MARK_INSERTION
    let isDeleteBeforeCursor := isMarkActive st MARK_DELETION
    let leftRange : Option (Nat × Nat) :=
      if isInsertBeforeCursor then getMarkRange st.doc f MARK_INSERTION
      else if isDeleteBeforeCursor then getMarkRange st.doc f MARK_DELETION
      else none
    match leftRange with
    | some lr => (getMarksBetween lr.1 lr.2 st.doc, opType)
    | none => ([], opType)
  else if opType = TRACK_COMMAND_ACCEPT_ALL ∨ opType = TRACK_COMMAND_REJECT_ALL then
    (getMarksBetween 0 st.doc.length st.doc,
      if opType = TRACK_COMMAND_ACCEPT_ALL then TRACK_COMMAND_ACCEPT else TRACK_COMMAND_REJECT)
  else
    (getMarksBetween f t st.doc, opType)

/-- The filter of source line 176: only insertion and deletion mark ranges
are processed. -/
def isTrackMarkRange (r : MarkRange) : Bool :=
  decide (markName r.mark = MARK_DELETION ∨ markName r.mark = MARK_INSERTION)

/-- The body of the per-range loop of changeTrack (source lines 194 to 207):
accept with insertion or reject with deletion strips both tracked mark types
from the offset-corrected range; the other two combinations delete the
offset-corrected range and grow the offset by the range length.  Returns the
new document, the new offset, and the number of transaction steps added. -/
def applyRange (op : String) (r : MarkRange) (doc : Doc) (offset : Nat) :
    Doc × Nat × Nat :=
  let isAcceptInsert := op = TRACK_COMMAND_ACCEPT ∧ markName r.mark = MARK_INSERTION
  let isRejectDelete := op = TRACK_COMMAND_REJECT ∧ markName r.mark = MARK_DELETION
  if isAcceptInsert ∨ isRejectDelete then
    (removeMarkRange (r.fromPos - offset) (r.toPos - offset) MARK_DELETION
      (removeMarkRange (r.fromPos - offset) (r.toPos - offset) MARK_INSERTION doc),
      offset, 2)
  else
    (deleteRange (r.fromPos - offset) (r.toPos - offset) doc,
      offset + (r.toPos - r.fromPos), 1)

/-- The forEach loop of changeTrack: process the gathered ranges in order,
threading the document, the running offset and the step count. -/
def applyRanges (op : String) : List MarkRange → Doc → Nat → Nat → Doc × Nat × Nat
  | [], doc, offset, steps => (doc, offset, steps)
  | r :: rs, doc, offset, steps =>
    let res := applyRange op r doc offset
    applyRanges op rs res.1 res.2.1 (steps + res.2.2)

/-- Result of a changeTrack call: resulting document, steps added to the
transaction, whether the trackManualChanged meta was set, and the returned
boolean. -/
structure CTResult where
  doc : Doc
  steps : Nat
  metaTrackManualChanged : Bool
  ret : Bool
deriving DecidableEq, Repr

/-- changeTrack (source lines 138 to 213): gather the scope's mark ranges,
keep only tracked ones, return false doing nothing when none remain,
otherwise apply the four-way policy per range with the running offset, tag
the transaction when it has steps, and return true. -/
def changeTrack (opType : String) (st : EditorState) : CTResult :=
  let gathered := gatherRanges opType st
  let markRanges := gathered.1.filter isTrackMarkRange
  if markRanges.isEmpty then ⟨st.doc, 0, false, false⟩
  else
    let res := applyRanges gathered.2 markRanges st.doc 0 0
    ⟨res.1, res.2.2, decide (0 < res.2.2), true⟩

/-- A block of characters, all carrying the same marks. -/
def blk (s : List Char) (ms : List TMark) : Doc := s.map (fun ch => ⟨ch, ms⟩)

/-- JavaScript Math.round on an exact rational: floor of x + 1/2 (halves
round up). -/
def mathRound (x : ℚ) : ℤ := ⌊x + 1 / 2⌋

/-- getMinuteTime (source line 130): Math.round(now / 1000 / 60) * 1000 * 60,
parameterized by the current time in milliseconds. -/
def getMinuteTime (nowMs : Nat) : ℤ :=
  mathRound ((nowMs : ℚ) / 1000 / 60) * 1000 * 60

/-- The extension's mutable options: tracking enabled flag and the current
author id and nickname (absent until configured). -/
structure ExtOptions where
  enabled : Bool
  dataOpUserId : Option String
  dataOpUserNickname : Option String
deriving DecidableEq, Repr

/-- Command setTrackChangeStatus: writes the flag, returns false.  The
onStatusChange callback is an external side effect outside the model. -/
def setTrackChangeStatus (enabled : Bool) (opts : ExtOptions) : ExtOptions × Bool :=
  ({ opts with enabled := enabled }, false)

/-- Command toggleTrackChangeStatus: flips the flag, returns false. -/
def toggleTrackChangeStatus (opts : ExtOptions) : ExtOptions × Bool :=
  ({ opts with enabled := !opts.enabled }, false)

/-- Command getTrackChangeStatus returns the enabled flag. -/
def getTrackChangeStatus (opts : ExtOptions) : Bool := opts.enabled

/-- Command acceptChange: runs changeTrack with accept, returns false. -/
def acceptChange (st : EditorState) : CTResult × Bool :=
  (changeTrack TRACK_COMMAND_ACCEPT st, false)

/-- Command acceptAllChanges: runs changeTrack with accept-all, returns false. -/
def acceptAllChanges (st : EditorState) : CTResult × Bool :=
  (changeTrack TRACK_COMMAND_ACCEPT_ALL st, false)

/-- Command rejectChange: runs changeTrack with reject, returns false. -/
def rejectChange (st : EditorState) : CTResult × Bool :=
  (changeTrack TRACK_COMMAND_REJECT st, false)

/-- Command rejectAllChanges: runs changeTrack with reject-all, returns false. -/
def rejectAllChanges (st : EditorState) : CTResult × Bool :=
  (changeTrack TRACK_COMMAND_REJECT_ALL st, false)

/-- Command updateOpUserOption: writes both author options, returns false. -/
def updateOpUserOption (opUserId opUserNickname : String) (opts : ExtOptions) :
    ExtOptions × Bool :=
  ({ opts with dataOpUserId := some opUserId,
               dataOpUserNickname := some opUserNickname }, false)

/-- IME status constants from the source. -/
def IME_STATUS_NORMAL : Nat := 0

/-- IME composition started. -/
def IME_STATUS_START : Nat := 1

/-- IME composition continuing. -/
def IME_STATUS_CONTINUE : Nat := 2

/-- IME composition finished. -/
def IME_STATUS_FINISHED : Nat := 3

/-- One ReplaceStep of an incoming change: replace the half-open range with
the given fragment (empty fragment: pure deletion; fromPos equal to toPos:
pure insertion). -/
structure RStep where
  fromPos : Nat
  toPos : Nat
  slice : Doc
deriving DecidableEq, Repr

/-- An incoming transaction as the plugin observes it: whether the document
changed, the three meta flags consulted by the interceptor, the list of
steps and, aligned with it, the document as it was before each step. -/
structure PmTransaction where
  docChanged : Bool
  metaTrackManualChanged : Bool
  metaHistory : Bool
  metaYSyncChangeOrigin : Bool
  steps : List RStep
  docs : List Doc
deriving Repr

/-- The corrective transaction appendTransaction returns: the resulting
document and whether the trackManualChanged meta was set on it.  The cursor
remap of the source is outside the modeled result. -/
structure CorrectiveTr where
  doc : Doc
  metaTrackManualChanged : Bool
deriving DecidableEq, Repr

namespace IndexTs

/-- The relevance filter of src/src/index.ts lines 313 to 320: document
changed, none of the three suppression metas, and at least one step. -/
def isRelevant (tx : PmTransaction) : Bool :=
  tx.docChanged && !tx.metaTrackManualChanged && !tx.metaHistory
    && !tx.metaYSyncChangeOrigin && decide (0 < tx.steps.length)

/-- Per-step processing of src/src/index.ts lines 329 to 370.  The insertion
branch marks (or, tracking disabled, unmarks) the inserted range and always
clears deletion marks there; the deletion branch inverts the step against
the pre-step document and re-inserts the removed fragment with a deletion
mark, with no insertion-mark check in this variant. -/
def processStep (opts : ExtOptions) (now : Nat) (tx : PmTransaction)
    (acc : Doc × Bool) (i : Nat) (st : RStep) : Doc × Bool :=
  let acc1 : Doc × Bool :=
    if 0 < st.slice.length then
      let insertionMark := TMark.insertion
        ⟨opts.dataOpUserId, opts.dataOpUserNickname, getMinuteTime now⟩
      let f := st.fromPos
      let t := st.fromPos + st.slice.length
      let doc1 := if opts.enabled then addMarkRange f t insertionMark acc.1
                  else removeMarkRange f t MARK_INSERTION acc.1
      (removeMarkRange f t MARK_DELETION doc1, true)
    else acc
  if st.fromPos ≠ st.toPos ∧ opts.enabled then
    let oldDoc := (tx.docs[i]?).getD []
    let invSlice := sliceDoc st.fromPos st.toPos oldDoc
    if 0 < invSlice.length then
      let deletionMark := TMark.deletion
        ⟨opts.dataOpUserId, opts.dataOpUserNickname, getMinuteTime now⟩
      let doc3 := insertAt st.fromPos invSlice acc1.1
      (addMarkRange st.fromPos (st.fromPos + invSlice.length) deletionMark doc3, true)
    else acc1
  else acc1

/-- appendTransaction of src/src/index.ts lines 304 to 378.  The module
level composingStatus is in scope at this point of the source; the body
never reads it. -/
def appendTransaction (composingStatus : Nat) (opts : ExtOptions) (now : Nat)
    (txs : List PmTransaction) (newDoc : Doc) : Option CorrectiveTr :=
  let relevantTransactions := txs.filter isRelevant
  if relevantTransactions.isEmpty then none
  else
    let res := relevantTransactions.foldl
      (fun acc tx =>
        (tx.steps.enum).foldl (fun a p => processStep opts now tx a p.1 p.2) acc)
      (newDoc, false)
    if res.2 then some ⟨res.1, true⟩ else none

end IndexTs

namespace Part000

/-- JavaScript logical-or defaulting: undefined and the empty string are
falsy. -/
def orDefault (s : Option String) (dflt : String) : String :=
  match s with
  | some v => if v = "" then dflt else v
  | none => dflt

/-- The relevance scan of src/unnamed/part_000 lines 313 to 324: some
transaction changed the document and carries none of the suppression
metas. -/
def hasRelevantChanges (txs : List PmTransaction) : Bool :=
  txs.any (fun tx => tx.docChanged && !tx.metaTrackManualChanged
    && !tx.metaHistory && !tx.metaYSyncChangeOrigin)

/-- Per-step processing of src/unnamed/part_000 lines 355 to 400.  Every
step of the model is a replace step, so the property probe for replace
steps is true.  The insertion branch marks the inserted range when tracking
is enabled and sets modified regardless; the deletion branch slices the
removed fragment out of the pre-step document, skips it entirely when any
of its characters carries an insertion mark, and otherwise re-inserts it
with a deletion mark.  The mapped position stepMap.map(step.from, -1) is
step.from itself. -/
def processStep (insertionMark deletionMark : TMark) (enabled : Bool)
    (tx : PmTransaction) (acc : Doc × Bool) (i : Nat) (st : RStep) : Doc × Bool :=
  let acc1 : Doc × Bool :=
    if 0 < st.slice.length then
      let f := st.fromPos
      let t := st.fromPos + st.slice.length
      ((if enabled then addMarkRange f t insertionMark acc.1 else acc.1), true)
    else acc
  if st.fromPos ≠ st.toPos ∧ enabled then
    let oldDoc := (tx.docs[i]?).getD []
    let deletedSlice := sliceDoc st.fromPos st.toPos oldDoc
    let hasInsertionMark := deletedSlice.any
      (fun c => c.marks.any (fun m => decide (markName m = MARK_INSERTION)))
    if !hasInsertionMark && decide (0 < deletedSlice.length) then
      let insertPos := st.fromPos
      let doc3 := insertAt insertPos deletedSlice acc1.1
      (addMarkRange insertPos (insertPos + deletedSlice.length) deletionMark doc3,
        true)
    else acc1
  else acc1

/-- The insertion mark src/unnamed/part_000 lines 329 to 333 creates: the
author options defaulted through logical-or and the minute-quantized now. -/
def mkInsertionMark (opts : ExtOptions) (now : Nat) : TMark :=
  TMark.insertion
    ⟨some (orDefault opts.dataOpUserId "user"),
      some (orDefault opts.dataOpUserNickname "User"), getMinuteTime now⟩

/-- The deletion mark src/unnamed/part_000 lines 335 to 339 creates. -/
def mkDeletionMark (opts : ExtOptions) (now : Nat) : TMark :=
  TMark.deletion
    ⟨some (orDefault opts.dataOpUserId "user"),
      some (orDefault opts.dataOpUserNickname "User"), getMinuteTime now⟩

/-- appendTransaction of src/unnamed/part_000 lines 304 to 415.  The marks
are created once with the author options defaulted through logical-or; the
processing loop skips transactions flagged trackManualChanged or history
(the y-sync flag is consulted only by the relevance scan in this variant).
The module level composingStatus is in scope; the body never reads it. -/
def appendTransaction (composingStatus : Nat) (opts : ExtOptions) (now : Nat)
    (txs : List PmTransaction) (newDoc : Doc) : Option CorrectiveTr :=
  if !hasRelevantChanges txs then none
  else
    let insertionMark := mkInsertionMark opts now
    let deletionMark := mkDeletionMark opts now
    let res := txs.foldl
      (fun acc tx =>
        if tx.metaTrackManualChanged || tx.metaHistory then acc
        else (tx.steps.enum).foldl
          (fun a p => processStep insertionMark deletionMark opts.enabled tx a p.1 p.2)
          acc)
      (newDoc, false)
    if res.2 then some ⟨res.1, true⟩ else none

end Part000

/-- The concrete scenario document: the text of a greeting followed by a
word carrying a pending deletion mark, cursor collapsed at the start. -/
def helloWorldTracked : EditorState :=
  ⟨blk "hello ".data [] ++ blk "world".data
    [TMark.deletion ⟨some "u1", some "Alice", 0⟩], 0, 0⟩

end TrackChange

namespace TrackChange

/-! Helper lemmas about the embedded operations. -/

theorem getMinuteTime_eq (t : Nat) :
    getMinuteTime t = (((t + 30000) / 60000) * 60000 : Nat) := by
  unfold getMinuteTime mathRound
  have h1 : ((t : ℚ) / 1000 / 60 + 1 / 2) = ((2 * t + 60000 : ℤ) : ℚ) / ((120000 : ℕ) : ℚ) := by
    push_cast
    ring
  rw [h1, Rat.floor_intCast_div_natCast]
  have h2 : (2 * (t : ℤ) + 60000) = 2 * ((t : ℤ) + 30000) := by ring
  have h3 : ((120000 : ℕ) : ℤ) = 2 * 60000 := by norm_num
  rw [h2, h3, Int.mul_ediv_mul_of_pos _ _ (by norm_num : (0 : ℤ) < 2)]
  push_cast
  ring

theorem applyRange_strip (op : String) (r : MarkRange) (doc : Doc) (off : Nat)
    (h : (op = TRACK_COMMAND_ACCEPT ∧ markName r.mark = MARK_INSERTION) ∨
         (op = TRACK_COMMAND_REJECT ∧ markName r.mark = MARK_DELETION)) :
    applyRange op r doc off =
      (removeMarkRange (r.fromPos - off) (r.toPos - off) MARK_DELETION
        (removeMarkRange (r.fromPos - off) (r.toPos - off) MARK_INSERTION doc),
        off, 2) := by
  simp only [applyRange]
  rw [if_pos h]

theorem applyRange_delete (op : String) (r : MarkRange) (doc : Doc) (off : Nat)
    (h : ¬((op = TRACK_COMMAND_ACCEPT ∧ markName r.mark = MARK_INSERTION) ∨
           (op = TRACK_COMMAND_REJECT ∧ markName r.mark = MARK_DELETION))) :
    applyRange op r doc off =
      (deleteRange (r.fromPos - off) (r.toPos - off) doc,
        off + (r.toPos - r.fromPos), 1) := by
  simp only [applyRange]
  rw [if_neg h]

/-- C1: the per-range policy of changeTrack is exactly the four-way table:
accept on an insertion-marked range and reject on a deletion-marked range
strip both tracked mark types and keep content; accept on a deletion-marked
range and reject on an insertion-marked range delete the offset-corrected
range and grow the offset.  On the concrete scenario document, accept-all
leaves the greeting only, and reject-all leaves the full text with marks
stripped. -/
theorem c1_four_way_policy :
    (∀ (r : MarkRange) (doc : Doc) (off : Nat),
        markName r.mark = MARK_INSERTION →
        applyRange TRACK_COMMAND_ACCEPT r doc off =
          (removeMarkRange (r.fromPos - off) (r.toPos - off) MARK_DELETION
            (removeMarkRange (r.fromPos - off) (r.toPos - off) MARK_INSERTION doc),
            off, 2)) ∧
    (∀ (r : MarkRange) (doc : Doc) (off : Nat),
        markName r.mark = MARK_DELETION →
        applyRange TRACK_COMMAND_ACCEPT r doc off =
          (deleteRange (r.fromPos - off) (r.toPos - off) doc,
            off + (r.toPos - r.fromPos), 1)) ∧
    (∀ (r : MarkRange) (doc : Doc) (off : Nat),
        markName r.mark = MARK_INSERTION →
        applyRange TRACK_COMMAND_REJECT r doc off =
          (deleteRange (r.fromPos - off) (r.toPos - off) doc,
            off + (r.toPos - r.fromPos), 1)) ∧
    (∀ (r : MarkRange) (doc : Doc) (off : Nat),
        markName r.mark = MARK_DELETION →
        applyRange TRACK_COMMAND_REJECT r doc off =
          (removeMarkRange (r.fromPos - off) (r.toPos - off) MARK_DELETION
            (removeMarkRange (r.fromPos - off) (r.toPos - off) MARK_INSERTION doc),
            off, 2)) ∧
    (changeTrack TRACK_COMMAND_ACCEPT_ALL helloWorldTracked).doc =
      blk "hello ".data [] ∧
    (changeTrack TRACK_COMMAND_ACCEPT_ALL helloWorldTracked).ret = true ∧
    (changeTrack TRACK_COMMAND_REJECT_ALL helloWorldTracked).doc =
      blk "hello world".data [] ∧
    (changeTrack TRACK_COMMAND_REJECT_ALL helloWorldTracked).ret = true := by
  refine ⟨?_, ?_, ?_, ?_, by decide, by decide, by decide, by decide⟩
  · intro r doc off h
    exact applyRange_strip _ r doc off (Or.inl ⟨rfl, h⟩)
  · intro r doc off h
    refine applyRange_delete _ r doc off ?_
    rintro (⟨-, h2⟩ | ⟨h1, -⟩)
    · rw [h] at h2
      simp [MARK_DELETION, MARK_INSERTION] at h2
    · simp [TRACK_COMMAND_ACCEPT, TRACK_COMMAND_REJECT] at h1
  · intro r doc off h
    refine applyRange_delete _ r doc off ?_
    rintro (⟨h1, -⟩ | ⟨-, h2⟩)
    · simp [TRACK_COMMAND_ACCEPT, TRACK_COMMAND_REJECT] at h1
    · rw [h] at h2
      simp [MARK_DELETION, MARK_INSERTION] at h2
  · intro r doc off h
    exact applyRange_strip _ r doc off (Or.inr ⟨rfl, h⟩)

/-- Witness for C1: the four policy branches applied at concrete ranges
over a concrete two-character document. -/
theorem c1_four_way_policy_witness :
    (applyRange TRACK_COMMAND_ACCEPT ⟨TMark.insertion ⟨none, none, 0⟩, 0, 1⟩
        (blk "ab".data [TMark.insertion ⟨none, none, 0⟩]) 0 =
      (removeMarkRange 0 1 MARK_DELETION
        (removeMarkRange 0 1 MARK_INSERTION
          (blk "ab".data [TMark.insertion ⟨none, none, 0⟩])), 0, 2)) ∧
    (applyRange TRACK_COMMAND_ACCEPT ⟨TMark.deletion ⟨none, none, 0⟩, 0, 1⟩
        (blk "ab".data [TMark.deletion ⟨none, none, 0⟩]) 0 =
      (deleteRange 0 1 (blk "ab".data [TMark.deletion ⟨none, none, 0⟩]), 0 + (1 - 0), 1)) ∧
    (applyRange TRACK_COMMAND_REJECT ⟨TMark.insertion ⟨none, none, 0⟩, 0, 1⟩
        (blk "ab".data [TMark.insertion ⟨none, none, 0⟩]) 0 =
      (deleteRange 0 1 (blk "ab".data [TMark.insertion ⟨none, none, 0⟩]), 0 + (1 - 0), 1)) ∧
    (applyRange TRACK_COMMAND_REJECT ⟨TMark.deletion ⟨none, none, 0⟩, 0, 1⟩
        (blk "ab".data [TMark.deletion ⟨none, none, 0⟩]) 0 =
      (removeMarkRange 0 1 MARK_DELETION
        (removeMarkRange 0 1 MARK_INSERTION
          (blk "ab".data [TMark.deletion ⟨none, none, 0⟩])), 0, 2)) :=
  ⟨c1_four_way_policy.1 _ _ 0 rfl,
    c1_four_way_policy.2.1 _ _ 0 rfl,
    c1_four_way_policy.2.2.1 _ _ 0 rfl,
    c1_four_way_policy.2.2.2.1 _ _ 0 rfl⟩

/-- C9: each public tracking and resolution command of the command surface
returns false for every input and every state, even when it did change the
configuration; success is never signaled through the return value. -/
theorem c9_commands_return_false :
    (∀ e opts, (setTrackChangeStatus e opts).2 = false ∧
      (setTrackChangeStatus e opts).1.enabled = e) ∧
    (∀ opts, (toggleTrackChangeStatus opts).2 = false) ∧
    (∀ st, (acceptChange st).2 = false) ∧
    (∀ st, (acceptAllChanges st).2 = false) ∧
    (∀ st, (rejectChange st).2 = false) ∧
    (∀ st, (rejectAllChanges st).2 = false) ∧
    (∀ i n opts, (updateOpUserOption i n opts).2 = false ∧
      (updateOpUserOption i n opts).1.dataOpUserId = some i) :=
  ⟨fun _ _ => ⟨rfl, rfl⟩, fun _ => rfl, fun _ => rfl, fun _ => rfl,
    fun _ => rfl, fun _ => rfl, fun _ _ _ => ⟨rfl, rfl⟩⟩

/-- C8 counterexample: at 90000 milliseconds the source rounds up to the
next minute, 120000, whereas truncation to the start of the minute gives
90000 - 90000 % 60000 = 60000; so getMinuteTime is not truncation. -/
theorem c8_counterexample_not_truncation :
    getMinuteTime 90000 = 120000 ∧
      (90000 : ℤ) - (90000 : ℤ) % 60000 = 60000 ∧
      getMinuteTime 90000 ≠ (90000 : ℤ) - (90000 : ℤ) % 60000 := by
  have he := getMinuteTime_eq 90000
  norm_num at he
  refine ⟨he, by norm_num, ?_⟩
  rw [he]
  norm_num

/-- C8 amended: the change timestamp is the current time rounded to the
NEAREST whole minute, halves rounding up: getMinuteTime t equals
((t + 30000) / 60000) * 60000 under integer division; it is always a
multiple of 60000 lying within 30000 ms of t. -/
theorem c8_amended_nearest_minute (t : Nat) :
    getMinuteTime t = (((t + 30000) / 60000) * 60000 : Nat) ∧
      getMinuteTime t % 60000 = 0 ∧
      (t : ℤ) - 30000 < getMinuteTime t ∧ getMinuteTime t ≤ (t : ℤ) + 30000 := by
  have he := getMinuteTime_eq t
  rw [he]
  refine ⟨rfl, ?_, ?_, ?_⟩ <;> omega

theorem mem_runsFrom_marks : ∀ (doc : Doc) (p : Nat) (r : Run),
    r ∈ runsFrom p doc → ∀ m ∈ r.marks, ∃ c ∈ doc, m ∈ c.marks := by
  intro doc
  induction doc with
  | nil =>
    intro p r hr
    simp [runsFrom] at hr
  | cons c rest ih =>
    intro p r hr m hm
    rcases hrec : runsFrom (p + 1) rest with _ | ⟨r0, rs⟩
    · rw [runsFrom, hrec] at hr
      rw [List.mem_singleton] at hr
      subst hr
      exact ⟨c, List.mem_cons_self c rest, hm⟩
    · have heq : runsFrom p (c :: rest) =
          if c.marks = r0.marks then ⟨p, r0.stop, r0.marks⟩ :: rs
          else ⟨p, p + 1, c.marks⟩ :: r0 :: rs := by
        simp only [runsFrom, hrec]
      rw [heq] at hr
      by_cases hmk : c.marks = r0.marks
      · rw [if_pos hmk] at hr
        rcases List.mem_cons.1 hr with h | h
        · subst h
          refine ⟨c, List.mem_cons_self c rest, ?_⟩
          rw [hmk]
          exact hm
        · obtain ⟨c', hc', hm'⟩ :=
            ih (p + 1) r (by rw [hrec]; exact List.mem_cons_of_mem _ h) m hm
          exact ⟨c', List.mem_cons_of_mem _ hc', hm'⟩
      · rw [if_neg hmk] at hr
        rcases List.mem_cons.1 hr with h | h
        · subst h
          exact ⟨c, List.mem_cons_self c rest, hm⟩
        · obtain ⟨c', hc', hm'⟩ := ih (p + 1) r (by rw [hrec]; exact h) m hm
          exact ⟨c', List.mem_cons_of_mem _ hc', hm'⟩

theorem mem_getMarksBetween_marks {f t : Nat} {doc : Doc} {mr : MarkRange}
    (h : mr ∈ getMarksBetween f t doc) : ∃ c ∈ doc, mr.mark ∈ c.marks := by
  unfold getMarksBetween at h
  rw [List.mem_flatMap] at h
  obtain ⟨r, hr, hmr⟩ := h
  rw [List.mem_filter] at hr
  rw [List.mem_map] at hmr
  obtain ⟨m, hm, rfl⟩ := hmr
  exact mem_runsFrom_marks doc 0 r hr.1 m hm

theorem mem_gatherRanges_marks (opType : String) (st : EditorState) (mr : MarkRange)
    (h : mr ∈ (gatherRanges opType st).1) : ∃ c ∈ st.doc, mr.mark ∈ c.marks := by
  simp only [gatherRanges] at h
  split at h
  · split at h
    · exact mem_getMarksBetween_marks h
    · simp at h
  · split at h
    · exact mem_getMarksBetween_marks h
    · exact mem_getMarksBetween_marks h

/-- C5: when the resolution scope gathers zero mark ranges of the insertion
or deletion kind, changeTrack is a no-op for every operation and state: it
returns false, adds no step, sets no meta and leaves the document unchanged,
rather than raising an error.  The condition is scope-local, so it covers
scopes without qualifying runs inside documents that do carry tracked runs
elsewhere.  The second conjunct connects a semantic condition to it: a
document with no tracked marks at all gathers an empty qualifying scope for
every operation and selection. -/
theorem c5_noop_empty_scope :
    ∀ (opType : String) (st : EditorState),
      ((gatherRanges opType st).1.filter isTrackMarkRange = [] →
        changeTrack opType st = ⟨st.doc, 0, false, false⟩) ∧
      ((∀ c ∈ st.doc, ∀ m ∈ c.marks,
          markName m ≠ MARK_INSERTION ∧ markName m ≠ MARK_DELETION) →
        (gatherRanges opType st).1.filter isTrackMarkRange = []) := by
  intro opType st
  constructor
  · intro hfil
    simp [changeTrack, hfil]
  · intro h
    rw [List.filter_eq_nil_iff]
    intro mr hmr
    obtain ⟨c, hc, hm⟩ := mem_gatherRanges_marks opType st mr hmr
    obtain ⟨hni, hnd⟩ := h c hc mr.mark hm
    unfold isTrackMarkRange
    simp [hni, hnd]

/-- Witness for C5: a selection scope containing only unmarked content,
inside a document whose first character carries an insertion run outside
that scope, is reported as nothing-changed rather than an error. -/
theorem c5_noop_empty_scope_witness :
    changeTrack TRACK_COMMAND_ACCEPT
        ⟨[⟨'a', [TMark.insertion ⟨none, none, 0⟩]⟩, ⟨'b', []⟩, ⟨'c', []⟩], 1, 3⟩ =
      ⟨[⟨'a', [TMark.insertion ⟨none, none, 0⟩]⟩, ⟨'b', []⟩, ⟨'c', []⟩],
        0, false, false⟩ :=
  (c5_noop_empty_scope TRACK_COMMAND_ACCEPT
    ⟨[⟨'a', [TMark.insertion ⟨none, none, 0⟩]⟩, ⟨'b', []⟩, ⟨'c', []⟩], 1, 3⟩).1
    (by decide)

theorem removeMarkAux_getElem? (f t : Nat) (tn : String) :
    ∀ (doc : Doc) (j i : Nat),
      (removeMarkAux f t tn j doc)[i]? =
        (doc[i]?).map
          (fun c => if f ≤ j + i ∧ j + i < t then removeMarkChar tn c else c) := by
  intro doc
  induction doc with
  | nil =>
    intro j i
    simp [removeMarkAux]
  | cons c rest ih =>
    intro j i
    cases i with
    | zero => simp [removeMarkAux]
    | succ i' =>
      simp only [removeMarkAux, List.getElem?_cons_succ]
      rw [ih (j + 1) i']
      have harith : j + 1 + i' = j + (i' + 1) := by omega
      rw [harith]

theorem removeMarkRange_getElem? (f t : Nat) (tn : String) (doc : Doc) (i : Nat) :
    (removeMarkRange f t tn doc)[i]? =
      (doc[i]?).map (fun c => if f ≤ i ∧ i < t then removeMarkChar tn c else c) := by
  unfold removeMarkRange
  rw [removeMarkAux_getElem?]
  simp

theorem removeMarkAux_map_ch (f t : Nat) (tn : String) :
    ∀ (doc : Doc) (j : Nat),
      (removeMarkAux f t tn j doc).map (fun c => c.ch) = doc.map (fun c => c.ch) := by
  intro doc
  induction doc with
  | nil => intro j; simp [removeMarkAux]
  | cons c rest ih =>
    intro j
    simp only [removeMarkAux, List.map_cons, ih (j + 1)]
    split <;> simp [removeMarkChar]

/-- C10: in the mark-stripping branch of the four-way policy (accept on an
insertion-marked range, reject on a deletion-marked range), changeTrack
removes BOTH tracked mark types from the offset-corrected range in the same
pass, so a character carrying both kinds leaves with neither; the text
itself is unchanged. -/
theorem c10_strip_removes_both_mark_types :
    ∀ (op : String) (r : MarkRange) (doc : Doc) (off : Nat),
      ((op = TRACK_COMMAND_ACCEPT ∧ markName r.mark = MARK_INSERTION) ∨
       (op = TRACK_COMMAND_REJECT ∧ markName r.mark = MARK_DELETION)) →
      ((applyRange op r doc off).1.map (fun c => c.ch) =
        doc.map (fun c => c.ch)) ∧
      (∀ (i : Nat) (c : MChar), ((applyRange op r doc off).1)[i]? = some c →
        r.fromPos - off ≤ i → i < r.toPos - off →
        ∀ m ∈ c.marks, markName m ≠ MARK_INSERTION ∧ markName m ≠ MARK_DELETION) := by
  intro op r doc off h
  rw [applyRange_strip op r doc off h]
  constructor
  · simp only [removeMarkRange]
    rw [removeMarkAux_map_ch, removeMarkAux_map_ch]
  · intro i c hc hle hlt m hm
    rw [removeMarkRange_getElem?] at hc
    rcases hdoc1 :
        (removeMarkRange (r.fromPos - off) (r.toPos - off) MARK_INSERTION doc)[i]?
      with _ | c1
    · rw [hdoc1] at hc
      simp at hc
    · rw [hdoc1] at hc
      simp only [Option.map_some'] at hc
      rw [if_pos ⟨hle, hlt⟩] at hc
      rw [removeMarkRange_getElem?] at hdoc1
      rcases hdoc0 : doc[i]? with _ | c0
      · rw [hdoc0] at hdoc1
        simp at hdoc1
      · rw [hdoc0] at hdoc1
        simp only [Option.map_some'] at hdoc1
        rw [if_pos ⟨hle, hlt⟩] at hdoc1
        cases hc
        cases hdoc1
        simp only [removeMarkChar, List.mem_filter] at hm
        obtain ⟨⟨hmem, hdec1⟩, hdec2⟩ := hm
        constructor
        · exact of_decide_eq_true hdec1
        · exact of_decide_eq_true hdec2

/-- Witness for C10: accepting an insertion-marked character that also
carries a deletion mark and a bold mark keeps the text and leaves only the
bold mark classified as non-tracked. -/
theorem c10_strip_witness :
    ((applyRange TRACK_COMMAND_ACCEPT
        ⟨TMark.insertion ⟨none, none, 0⟩, 0, 1⟩
        [⟨'x', [TMark.insertion ⟨none, none, 0⟩, TMark.deletion ⟨none, none, 0⟩,
          TMark.other "bold"]⟩] 0).1.map (fun c => c.ch) =
      ([⟨'x', [TMark.insertion ⟨none, none, 0⟩, TMark.deletion ⟨none, none, 0⟩,
        TMark.other "bold"]⟩] : Doc).map (fun c => c.ch)) ∧
    (markName (TMark.other "bold") ≠ MARK_INSERTION ∧
      markName (TMark.other "bold") ≠ MARK_DELETION) := by
  refine ⟨(c10_strip_removes_both_mark_types TRACK_COMMAND_ACCEPT
      ⟨TMark.insertion ⟨none, none, 0⟩, 0, 1⟩ _ 0 (Or.inl ⟨rfl, rfl⟩)).1, ?_⟩
  exact (c10_strip_removes_both_mark_types TRACK_COMMAND_ACCEPT
      ⟨TMark.insertion ⟨none, none, 0⟩, 0, 1⟩
      [⟨'x', [TMark.insertion ⟨none, none, 0⟩, TMark.deletion ⟨none, none, 0⟩,
        TMark.other "bold"]⟩] 0 (Or.inl ⟨rfl, rfl⟩)).2
      0 ⟨'x', [TMark.other "bold"]⟩ (by decide) (by decide) (by decide)
      (TMark.other "bold") (by decide)

theorem takeWhile_getElem?_sat {α : Type} (q : α → Bool) :
    ∀ (l : List α) (i : Nat), i < (l.takeWhile q).length →
      ∃ x, l[i]? = some x ∧ q x = true := by
  intro l
  induction l with
  | nil =>
    intro i h
    simp at h
  | cons c rest ih =>
    intro i h
    by_cases hq : q c
    · rw [List.takeWhile_cons_of_pos hq] at h
      cases i with
      | zero => exact ⟨c, by simp, hq⟩
      | succ j =>
        obtain ⟨x, hx, hqx⟩ := ih j (by simpa using h)
        exact ⟨x, by simpa using hx, hqx⟩
    · rw [List.takeWhile_cons_of_neg hq] at h
      simp at h

theorem takeWhile_boundary {α : Type} (q : α → Bool) :
    ∀ (l : List α), (l.takeWhile q).length < l.length →
      ∃ x, l[(l.takeWhile q).length]? = some x ∧ q x = false := by
  intro l
  induction l with
  | nil =>
    intro h
    simp at h
  | cons c rest ih =>
    intro h
    by_cases hq : q c
    · rw [List.takeWhile_cons_of_pos hq] at h ⊢
      obtain ⟨x, hx, hqx⟩ := ih (by simpa using h)
      refine ⟨x, ?_, hqx⟩
      simpa using hx
    · rw [List.takeWhile_cons_of_neg hq]
      exact ⟨c, by simp, by simpa using hq⟩

/-- Specification of getMarkRange: when it reports a range, the found mark
has the requested type name, the range contains the probe position, stays
inside the document, the mark is present on every character of the range,
and the range is maximal on both sides. -/
theorem getMarkRange_spec (doc : Doc) (p : Nat) (tn : String) (lo hi : Nat)
    (h : getMarkRange doc p tn = some (lo, hi)) :
    ∃ mk, markName mk = tn ∧ lo ≤ p ∧ p < hi ∧ hi ≤ doc.length ∧
      (∀ i, lo ≤ i → i < hi → ∃ c, doc[i]? = some c ∧ mk ∈ c.marks) ∧
      (lo = 0 ∨ ∀ c, doc[lo - 1]? = some c → mk ∉ c.marks) ∧
      (∀ c, doc[hi]? = some c → mk ∉ c.marks) := by
  unfold getMarkRange at h
  split at h
  · exact absurd h (by simp)
  · rename_i c hp
    split at h
    · exact absurd h (by simp)
    · rename_i mk hfind
      simp only [Option.some.injEq, Prod.mk.injEq] at h
      obtain ⟨hl, hr⟩ := h
      have hplen : p < doc.length := by
        rcases List.getElem?_eq_some_iff.1 hp with ⟨hlt, -⟩
        exact hlt
      have hmkname : markName mk = tn :=
        of_decide_eq_true (List.find?_some (p := fun m => decide (markName m = tn)) hfind)
      have hmkmem : mk ∈ c.marks := List.mem_of_find?_eq_some hfind
      set q : MChar → Bool := fun d => decide (mk ∈ d.marks) with hqdef
      set A : Doc := (doc.take p).reverse with hAdef
      set kl : Nat := (A.takeWhile q).length with hkldef
      set B : Doc := doc.drop (p + 1) with hBdef
      set kr : Nat := (B.takeWhile q).length with hkrdef
      have hAlen : A.length = p := by
        rw [hAdef]
        simp [List.length_take, Nat.min_eq_left (le_of_lt hplen)]
      have hkl_le : kl ≤ p := by
        rw [hkldef, ← hAlen]
        exact (List.takeWhile_prefix q).length_le
      have hBlen : B.length = doc.length - (p + 1) := by
        rw [hBdef]
        simp
      have hkr_le : kr ≤ doc.length - (p + 1) := by
        rw [hkrdef, ← hBlen]
        exact (List.takeWhile_prefix q).length_le
      subst hl
      subst hr
      refine ⟨mk, hmkname, by omega, by omega, by omega, ?_, ?_, ?_⟩
      · intro i hi1 hi2
        rcases Nat.lt_trichotomy i p with hlt | heq | hgt
        · have hj : p - 1 - i < kl := by omega
          obtain ⟨x, hx, hqx⟩ := takeWhile_getElem?_sat q A (p - 1 - i) hj
          rw [hAdef] at hx
          rw [List.getElem?_reverse (by
            rw [show (doc.take p).length = p from by
              simp [List.length_take, Nat.min_eq_left (le_of_lt hplen)]]
            omega)] at hx
          rw [show (doc.take p).length - 1 - (p - 1 - i) = i from by
            simp [List.length_take, Nat.min_eq_left (le_of_lt hplen)]
            omega] at hx
          rw [List.getElem?_take_of_lt hlt] at hx
          exact ⟨x, hx, of_decide_eq_true hqx⟩
        · subst heq
          exact ⟨c, hp, hmkmem⟩
        · obtain ⟨x, hx, hqx⟩ :=
            takeWhile_getElem?_sat q B (i - (p + 1)) (by omega)
          rw [hBdef, List.getElem?_drop] at hx
          rw [show p + 1 + (i - (p + 1)) = i from by omega] at hx
          exact ⟨x, hx, of_decide_eq_true hqx⟩
      · by_cases hl0 : p - kl = 0
        · exact Or.inl hl0
        · refine Or.inr ?_
          intro c' hc'
          have hklA : kl < A.length := by omega
          obtain ⟨x, hx, hqx⟩ := takeWhile_boundary q A hklA
          rw [← hkldef, hAdef] at hx
          rw [List.getElem?_reverse (by
            simp only [List.length_take, Nat.min_eq_left (le_of_lt hplen)]
            omega)] at hx
          rw [show (doc.take p).length - 1 - kl = p - kl - 1 from by
            simp only [List.length_take, Nat.min_eq_left (le_of_lt hplen)]
            omega] at hx
          rw [List.getElem?_take_of_lt (by omega)] at hx
          rw [hc'] at hx
          cases hx
          intro hmem
          exact absurd hmem (of_decide_eq_false hqx)
      · intro c' hc'
        have hrlen : p + 1 + kr < doc.length := by
          rcases List.getElem?_eq_some_iff.1 hc' with ⟨hlt, -⟩
          exact hlt
        have hkrB : kr < B.length := by omega
        obtain ⟨x, hx, hqx⟩ := takeWhile_boundary q B hkrB
        rw [← hkrdef, hBdef, List.getElem?_drop] at hx
        rw [hc'] at hx
        cases hx
        exact of_decide_eq_false hqx

theorem changeTrack_of_gather_nil (op : String) (st : EditorState)
    (h : (gatherRanges op st).1 = []) :
    changeTrack op st = ⟨st.doc, 0, false, false⟩ := by
  simp [changeTrack, h]

theorem gatherRanges_collapsed (op : String) (st : EditorState)
    (hop : op = TRACK_COMMAND_ACCEPT ∨ op = TRACK_COMMAND_REJECT)
    (hsel : st.selFrom = st.selTo) :
    (gatherRanges op st).1 =
      (match (if isMarkActive st MARK_INSERTION = true
          then getMarkRange st.doc st.selFrom MARK_INSERTION
          else if isMarkActive st MARK_DELETION = true
          then getMarkRange st.doc st.selFrom MARK_DELETION
          else none) with
        | some lr => getMarksBetween lr.1 lr.2 st.doc
        | none => []) := by
  simp only [gatherRanges]
  rw [if_pos (show (op = TRACK_COMMAND_ACCEPT ∨ op = TRACK_COMMAND_REJECT) ∧
    st.selFrom = st.selTo from ⟨hop, hsel⟩)]
  rcases hLR : (if isMarkActive st MARK_INSERTION = true
      then getMarkRange st.doc st.selFrom MARK_INSERTION
      else if isMarkActive st MARK_DELETION = true
      then getMarkRange st.doc st.selFrom MARK_DELETION
      else none) with _ | lr <;> rfl

/-- C6: with a collapsed selection, a single accept or reject probes the
marks active at the cursor: insertion active expands the scope to the
insertion mark's range; otherwise deletion active expands to the deletion
mark's range; neither active, or no range found at the cursor node, makes
the call a no-op; and any range found is the found mark's full contiguous
maximal extent containing the cursor node. -/
theorem c6_collapsed_selection_probe :
    ∀ (op : String) (st : EditorState),
      (op = TRACK_COMMAND_ACCEPT ∨ op = TRACK_COMMAND_REJECT) →
      st.selFrom = st.selTo →
      ((isMarkActive st MARK_INSERTION = true →
          (gatherRanges op st).1 =
            (match getMarkRange st.doc st.selFrom MARK_INSERTION with
              | some lr => getMarksBetween lr.1 lr.2 st.doc
              | none => [])) ∧
        (isMarkActive st MARK_INSERTION = false →
          isMarkActive st MARK_DELETION = true →
          (gatherRanges op st).1 =
            (match getMarkRange st.doc st.selFrom MARK_DELETION with
              | some lr => getMarksBetween lr.1 lr.2 st.doc
              | none => [])) ∧
        (isMarkActive st MARK_INSERTION = false →
          isMarkActive st MARK_DELETION = false →
          changeTrack op st = ⟨st.doc, 0, false, false⟩) ∧
        (getMarkRange st.doc st.selFrom MARK_INSERTION = none →
          getMarkRange st.doc st.selFrom MARK_DELETION = none →
          changeTrack op st = ⟨st.doc, 0, false, false⟩) ∧
        (∀ lo hi tname,
          (tname = MARK_INSERTION ∨ tname = MARK_DELETION) →
          getMarkRange st.doc st.selFrom tname = some (lo, hi) →
          ∃ mk, markName mk = tname ∧ lo ≤ st.selFrom ∧ st.selFrom < hi ∧
            hi ≤ st.doc.length ∧
            (∀ i, lo ≤ i → i < hi → ∃ c, st.doc[i]? = some c ∧ mk ∈ c.marks) ∧
            (lo = 0 ∨ ∀ c, st.doc[lo - 1]? = some c → mk ∉ c.marks) ∧
            (∀ c, st.doc[hi]? = some c → mk ∉ c.marks))) := by
  intro op st hop hsel
  have hbase := gatherRanges_collapsed op st hop hsel
  refine ⟨?_, ?_, ?_, ?_, ?_⟩
  · intro hIns
    rw [hbase, hIns]
    simp
  · intro hIns hDel
    rw [hbase, hIns, hDel]
    simp
  · intro hIns hDel
    refine changeTrack_of_gather_nil op st ?_
    rw [hbase, hIns, hDel]
    simp
  · intro hgmI hgmD
    refine changeTrack_of_gather_nil op st ?_
    rw [hbase]
    rcases hIns : isMarkActive st MARK_INSERTION with _ | _
    · rcases hDel : isMarkActive st MARK_DELETION with _ | _
      · simp
      · simp [hgmD]
    · simp [hgmI]
  · intro lo hi tname _ hgm
    obtain ⟨mk, h1, h2, h3, h4, h5, h6, h7⟩ :=
      getMarkRange_spec st.doc st.selFrom tname lo hi hgm
    exact ⟨mk, h1, h2, h3, h4, h5, h6, h7⟩

/-- Witness for C6: cursor inside an insertion run expands to the run's
range; cursor past the end of a deletion-marked document reports the mark
active but finds no range, so the call is a no-op. -/
theorem c6_collapsed_selection_witness :
    ((gatherRanges TRACK_COMMAND_ACCEPT
        ⟨[⟨'a', [TMark.insertion ⟨none, none, 0⟩]⟩], 0, 0⟩).1 =
      (match getMarkRange [⟨'a', [TMark.insertion ⟨none, none, 0⟩]⟩] 0
          MARK_INSERTION with
        | some lr =>
          getMarksBetween lr.1 lr.2 [⟨'a', [TMark.insertion ⟨none, none, 0⟩]⟩]
        | none => [])) ∧
    changeTrack TRACK_COMMAND_REJECT
        ⟨[⟨'a', [TMark.deletion ⟨none, none, 0⟩]⟩], 1, 1⟩ =
      ⟨[⟨'a', [TMark.deletion ⟨none, none, 0⟩]⟩], 0, false, false⟩ := by
  refine ⟨(c6_collapsed_selection_probe TRACK_COMMAND_ACCEPT
      ⟨[⟨'a', [TMark.insertion ⟨none, none, 0⟩]⟩], 0, 0⟩
      (Or.inl rfl) rfl).1 (by decide), ?_⟩
  exact (c6_collapsed_selection_probe TRACK_COMMAND_REJECT
      ⟨[⟨'a', [TMark.deletion ⟨none, none, 0⟩]⟩], 1, 1⟩
      (Or.inr rfl) rfl).2.2.2.1 (by decide) (by decide)

theorem addMarkAux_append (f t : Nat) (m : TMark) :
    ∀ (xs ys : Doc) (j : Nat),
      addMarkAux f t m j (xs ++ ys) =
        addMarkAux f t m j xs ++ addMarkAux f t m (j + xs.length) ys := by
  intro xs
  induction xs with
  | nil =>
    intro ys j
    simp [addMarkAux]
  | cons c rest ih =>
    intro ys j
    simp only [List.cons_append, addMarkAux, List.length_cons, List.append_eq]
    rw [ih ys (j + 1)]
    rw [show j + 1 + rest.length = j + (rest.length + 1) from by omega]

theorem addMarkAux_of_lt (f t : Nat) (m : TMark) :
    ∀ (xs : Doc) (j : Nat), j + xs.length ≤ f → addMarkAux f t m j xs = xs := by
  intro xs
  induction xs with
  | nil =>
    intro j _
    simp [addMarkAux]
  | cons c rest ih =>
    intro j h
    simp only [List.length_cons] at h
    simp only [addMarkAux]
    rw [if_neg (by omega), ih (j + 1) (by omega)]

theorem addMarkAux_of_ge (f t : Nat) (m : TMark) :
    ∀ (xs : Doc) (j : Nat), t ≤ j → addMarkAux f t m j xs = xs := by
  intro xs
  induction xs with
  | nil =>
    intro j _
    simp [addMarkAux]
  | cons c rest ih =>
    intro j h
    simp only [addMarkAux]
    rw [if_neg (by omega), ih (j + 1) (by omega)]

theorem addMarkAux_inside (f t : Nat) (m : TMark) :
    ∀ (xs : Doc) (j : Nat), f ≤ j → j + xs.length ≤ t →
      addMarkAux f t m j xs = xs.map (addMarkChar m) := by
  intro xs
  induction xs with
  | nil =>
    intro j _ _
    simp [addMarkAux]
  | cons c rest ih =>
    intro j h1 h2
    simp only [List.length_cons] at h2
    simp only [addMarkAux, List.map_cons]
    rw [if_pos (by omega : f ≤ j ∧ j < t), ih (j + 1) (by omega) (by omega)]

theorem addMarkRange_three (m : TMark) (X Y Z : Doc) :
    addMarkRange X.length (X.length + Y.length) m (X ++ Y ++ Z) =
      X ++ Y.map (addMarkChar m) ++ Z := by
  unfold addMarkRange
  rw [addMarkAux_append, addMarkAux_append]
  rw [addMarkAux_of_lt _ _ _ X 0 (by omega)]
  rw [addMarkAux_inside _ _ _ Y (0 + X.length) (by omega) (by omega)]
  rw [addMarkAux_of_ge _ _ _ Z (0 + (X ++ Y).length)
    (by simp [List.length_append])]

theorem sliceDoc_length (f t : Nat) (doc : Doc) (h : t ≤ doc.length) :
    (sliceDoc f t doc).length = t - f := by
  unfold sliceDoc
  simp only [List.length_take, List.length_drop]
  omega

theorem take_slice_drop (f t : Nat) (doc : Doc) (hft : f ≤ t) (h : t ≤ doc.length) :
    doc.take f ++ sliceDoc f t doc ++ doc.drop t = doc := by
  unfold sliceDoc
  have h2 : (doc.drop f).drop (t - f) = doc.drop t := by
    rw [List.drop_drop, show f + (t - f) = t from by omega]
  calc doc.take f ++ (doc.drop f).take (t - f) ++ doc.drop t
      = doc.take f ++ ((doc.drop f).take (t - f) ++ (doc.drop f).drop (t - f)) := by
        rw [h2, List.append_assoc]
    _ = doc.take f ++ doc.drop f := by rw [List.take_append_drop]
    _ = doc := List.take_append_drop f doc

theorem addMarkRange_three' (m : TMark) (X Y Z : Doc) (a b : Nat)
    (ha : a = X.length) (hb : b = X.length + Y.length) :
    addMarkRange a b m (X ++ Y ++ Z) = X ++ Y.map (addMarkChar m) ++ Z := by
  subst ha
  subst hb
  exact addMarkRange_three m X Y Z

/-- C3: for an intercepted pure deletion step under tracking (part_000's
interceptor, the variant carrying the insertion-mark check): when any
removed character carries an insertion mark the removal goes through
unmarked (no corrective change, no deletion mark); otherwise the removed
fragment recovered from the pre-change document is re-inserted at the
deletion position tagged with the author's deletion mark, the corrective
transaction is flagged, and the resulting text equals the original text. -/
theorem c3_deletion_interception :
    ∀ (cs : Nat) (opts : ExtOptions) (now : Nat) (old : Doc) (f t : Nat),
      opts.enabled = true → f < t → t ≤ old.length →
      (((∃ c ∈ sliceDoc f t old, ∃ m ∈ c.marks, markName m = MARK_INSERTION) →
          Part000.appendTransaction cs opts now
            [⟨true, false, false, false, [⟨f, t, []⟩], [old]⟩]
            (deleteRange f t old) = none) ∧
        ((∀ c ∈ sliceDoc f t old, ∀ m ∈ c.marks, markName m ≠ MARK_INSERTION) →
          Part000.appendTransaction cs opts now
              [⟨true, false, false, false, [⟨f, t, []⟩], [old]⟩]
              (deleteRange f t old) =
            some ⟨old.take f ++
              (sliceDoc f t old).map (addMarkChar (Part000.mkDeletionMark opts now)) ++
              old.drop t, true⟩ ∧
          (old.take f ++
            (sliceDoc f t old).map (addMarkChar (Part000.mkDeletionMark opts now)) ++
            old.drop t).map (fun c => c.ch) = old.map (fun c => c.ch))) := by
  intro cs opts now old f t hen hft htl
  have hne : f ≠ t := by omega
  constructor
  · intro hex
    have hnotall : ¬(∀ c ∈ sliceDoc f t old, ∀ m ∈ c.marks,
        ¬markName m = MARK_INSERTION) := by
      obtain ⟨c, hc, m, hm, hname⟩ := hex
      intro hall
      exact hall c hc m hm hname
    simp [Part000.appendTransaction, Part000.hasRelevantChanges,
      Part000.processStep, List.enum_cons, hen, hne, hnotall]
  · intro hnone
    have hslen : (sliceDoc f t old).length = t - f := sliceDoc_length f t old htl
    have hpos : 0 < (sliceDoc f t old).length := by omega
    have hXlen : (old.take f).length = f := by
      simp [List.length_take]
      omega
    have hdoc : insertAt f (sliceDoc f t old) (deleteRange f t old) =
        old.take f ++ sliceDoc f t old ++ old.drop t := by
      unfold insertAt deleteRange
      rw [List.take_left' hXlen, List.drop_left' hXlen]
    have hres : Part000.appendTransaction cs opts now
        [⟨true, false, false, false, [⟨f, t, []⟩], [old]⟩]
        (deleteRange f t old) =
        some ⟨addMarkRange f (f + (sliceDoc f t old).length)
          (Part000.mkDeletionMark opts now)
          (insertAt f (sliceDoc f t old) (deleteRange f t old)), true⟩ := by
      simp only [Part000.appendTransaction, Part000.hasRelevantChanges,
        Part000.processStep, List.enum_cons, hen, hne, hpos]
      simp [hen, hne, hpos]
      have hcond : ∀ x ∈ sliceDoc f t old, ∀ m ∈ x.marks,
          ¬markName m = MARK_INSERTION := by
        intro x hx m hm
        exact hnone x hx m hm
      rw [if_pos hcond]
      exact ⟨rfl, rfl⟩
    rw [hres, hdoc]
    rw [addMarkRange_three' (Part000.mkDeletionMark opts now)
      (old.take f) (sliceDoc f t old) (old.drop t) f
      (f + (sliceDoc f t old).length) hXlen.symm (by omega)]
    refine ⟨rfl, ?_⟩
    conv_rhs => rw [← take_slice_drop f t old (le_of_lt hft) htl]
    simp only [List.map_append, List.map_map]
    rfl

/-- Witness for C3: deleting the insertion-marked middle character of a
three-character document produces no corrective change (the content is
really removed); deleting an unmarked character re-inserts it struck
through. -/
theorem c3_deletion_interception_witness :
    (Part000.appendTransaction 0 ⟨true, some "u1", some "Alice"⟩ 0
        [⟨true, false, false, false, [⟨1, 2, []⟩],
          [[⟨'c', []⟩, ⟨'a', [TMark.insertion ⟨none, none, 0⟩]⟩, ⟨'t', []⟩]]⟩]
        (deleteRange 1 2
          [⟨'c', []⟩, ⟨'a', [TMark.insertion ⟨none, none, 0⟩]⟩, ⟨'t', []⟩]) = none) ∧
    (Part000.appendTransaction 0 ⟨true, some "u1", some "Alice"⟩ 0
        [⟨true, false, false, false, [⟨0, 1, []⟩], [[⟨'a', []⟩, ⟨'b', []⟩]]⟩]
        (deleteRange 0 1 [⟨'a', []⟩, ⟨'b', []⟩]) =
      some ⟨([⟨'a', []⟩, ⟨'b', []⟩] : Doc).take 0 ++
        (sliceDoc 0 1 [⟨'a', []⟩, ⟨'b', []⟩]).map
          (addMarkChar (Part000.mkDeletionMark ⟨true, some "u1", some "Alice"⟩ 0)) ++
        ([⟨'a', []⟩, ⟨'b', []⟩] : Doc).drop 1, true⟩) := by
  constructor
  · exact (c3_deletion_interception 0 ⟨true, some "u1", some "Alice"⟩ 0
      [⟨'c', []⟩, ⟨'a', [TMark.insertion ⟨none, none, 0⟩]⟩, ⟨'t', []⟩] 1 2
      rfl (by decide) (by decide)).1 (by decide)
  · exact ((c3_deletion_interception 0 ⟨true, some "u1", some "Alice"⟩ 0
      [⟨'a', []⟩, ⟨'b', []⟩] 0 1 rfl (by decide) (by decide)).2 (by decide)).1

theorem runsFrom_cons_nil (p : Nat) (c : MChar) (rest : Doc)
    (hrec : runsFrom (p + 1) rest = []) :
    runsFrom p (c :: rest) = [⟨p, p + 1, c.marks⟩] := by
  simp only [runsFrom, hrec]

theorem runsFrom_cons_eq (p : Nat) (c : MChar) (rest : Doc) (r0 : Run) (rs : List Run)
    (hrec : runsFrom (p + 1) rest = r0 :: rs) :
    runsFrom p (c :: rest) =
      if c.marks = r0.marks then ⟨p, r0.stop, r0.marks⟩ :: rs
      else ⟨p, p + 1, c.marks⟩ :: r0 :: rs := by
  simp only [runsFrom, hrec]

theorem runsFrom_cons_shape (p : Nat) (c : MChar) (rest : Doc) :
    ∃ e tl, runsFrom p (c :: rest) = ⟨p, e, c.marks⟩ :: tl := by
  rcases hrec : runsFrom (p + 1) rest with _ | ⟨r0, rs⟩
  · exact ⟨p + 1, [], runsFrom_cons_nil p c rest hrec⟩
  · by_cases hmk : c.marks = r0.marks
    · refine ⟨r0.stop, rs, ?_⟩
      rw [runsFrom_cons_eq p c rest r0 rs hrec, if_pos hmk, hmk]
    · refine ⟨p + 1, r0 :: rs, ?_⟩
      rw [runsFrom_cons_eq p c rest r0 rs hrec, if_neg hmk]

theorem blk_length (s : List Char) (ms : List TMark) :
    (blk s ms).length = s.length := by
  simp [blk]

theorem blk_ne_nil {s : List Char} (ms : List TMark) (h : s ≠ []) :
    blk s ms ≠ [] := by
  cases s with
  | nil => exact absurd rfl h
  | cons ch s' => simp [blk]

theorem getLast_marks_of_blk (s : List Char) (ms : List TMark) :
    ∀ a, (blk s ms).getLast? = some a → a.marks = ms := by
  intro a ha
  rw [blk, List.getLast?_map] at ha
  rcases hch : s.getLast? with _ | ch
  · rw [hch] at ha
    simp at ha
  · rw [hch] at ha
    simp only [Option.map_some'] at ha
    cases ha
    rfl

theorem head_marks_of_blk (s : List Char) (ms : List TMark) :
    ∀ a, (blk s ms).head? = some a → a.marks = ms := by
  intro a ha
  rw [blk, List.head?_map] at ha
  rcases hch : s.head? with _ | ch
  · rw [hch] at ha
    simp at ha
  · rw [hch] at ha
    simp only [Option.map_some'] at ha
    cases ha
    rfl

theorem runsFrom_blk (s : List Char) (ms : List TMark) :
    ∀ (p : Nat), s ≠ [] → runsFrom p (blk s ms) = [⟨p, p + s.length, ms⟩] := by
  induction s with
  | nil =>
    intro p h
    exact absurd rfl h
  | cons ch s' ih =>
    intro p _
    cases hs' : s' with
    | nil =>
      subst hs'
      have : runsFrom (p + 1) (blk ([] : List Char) ms) = [] := by simp [blk, runsFrom]
      rw [show blk [ch] ms = (⟨ch, ms⟩ : MChar) :: blk [] ms from rfl]
      rw [runsFrom_cons_nil p ⟨ch, ms⟩ (blk [] ms) this]
      rfl
    | cons ch2 s'' =>
      have hne : s' ≠ [] := by rw [hs']; simp
      have hrec := ih (p + 1) hne
      rw [hs'] at hrec
      rw [show blk (ch :: ch2 :: s'') ms = (⟨ch, ms⟩ : MChar) :: blk (ch2 :: s'') ms from rfl]
      rw [hs'] at *
      rw [runsFrom_cons_eq p ⟨ch, ms⟩ (blk (ch2 :: s'') ms) _ _ hrec, if_pos rfl]
      simp only [List.length_cons]
      congr 2
      omega

theorem runsFrom_append :
    ∀ (xs ys : Doc) (p : Nat), xs ≠ [] → ys ≠ [] →
      (∀ a b, xs.getLast? = some a → ys.head? = some b → a.marks ≠ b.marks) →
      runsFrom p (xs ++ ys) = runsFrom p xs ++ runsFrom (p + xs.length) ys := by
  intro xs
  induction xs with
  | nil =>
    intro ys p hx _ _
    exact absurd rfl hx
  | cons c xs' ih =>
    intro ys p _ hy hb
    cases hxs' : xs' with
    | nil =>
      subst hxs'
      rcases hys : ys with _ | ⟨y, ys'⟩
      · exact absurd hys hy
      subst hys
      obtain ⟨e, tl, hhd⟩ := runsFrom_cons_shape (p + 1) y ys'
      have hbm : c.marks ≠ y.marks := hb c y rfl rfl
      rw [show ([c] : Doc) ++ (y :: ys') = c :: y :: ys' from rfl]
      rw [runsFrom_cons_eq p c (y :: ys') _ _ hhd, if_neg hbm]
      rw [show runsFrom p [c] = [⟨p, p + 1, c.marks⟩] from by simp [runsFrom]]
      simp [hhd]
    | cons c' xs'' =>
      subst hxs'
      have hx' : (c' :: xs'') ≠ [] := by simp
      have hb' : ∀ a b, (c' :: xs'').getLast? = some a → ys.head? = some b →
          a.marks ≠ b.marks := by
        intro a b ha hbh
        refine hb a b ?_ hbh
        rw [List.getLast?_cons_cons]
        exact ha
      have hIH := ih ys (p + 1) hx' hy hb'
      obtain ⟨e2, tl2, hhd2⟩ := runsFrom_cons_shape (p + 1) c' xs''
      have hrecL : runsFrom (p + 1) (c' :: (xs'' ++ ys)) =
          (⟨p + 1, e2, c'.marks⟩ : Run) ::
            (tl2 ++ runsFrom (p + 1 + (c' :: xs'').length) ys) := by
        rw [← List.cons_append, hIH, hhd2, List.cons_append]
      rw [show (c :: c' :: xs'') ++ ys = c :: (c' :: (xs'' ++ ys)) from by simp]
      rw [runsFrom_cons_eq p c (c' :: (xs'' ++ ys)) _ _ hrecL]
      rw [runsFrom_cons_eq p c (c' :: xs'') _ _ hhd2]
      by_cases hmk : c.marks = c'.marks
      · rw [if_pos hmk, if_pos hmk]
        rw [show (p + (c :: c' :: xs'').length) = (p + 1 + (c' :: xs'').length) from by
          simp
          omega]
        rfl
      · rw [if_neg hmk, if_neg hmk]
        rw [show (p + (c :: c' :: xs'').length) = (p + 1 + (c' :: xs'').length) from by
          simp
          omega]
        rfl

theorem head?_append_left {α : Type} (l l' : List α) (h : l ≠ []) :
    (l ++ l').head? = l.head? := by
  rw [List.head?_append]
  rcases hx : l.head? with _ | a
  · rw [List.head?_eq_none_iff] at hx
    exact absurd hx h
  · simp

theorem getLast?_append_right {α : Type} (l l' : List α) (h : l' ≠ []) :
    (l ++ l').getLast? = l'.getLast? := by
  rw [List.getLast?_append]
  rcases hx : l'.getLast? with _ | a
  · rw [List.getLast?_eq_none_iff] at hx
    exact absurd hx h
  · simp

theorem runs_three (D1 B D2 : List Char) (m1 m2 : TMark) (q : Nat)
    (h1 : D1 ≠ []) (hbn : B ≠ []) (h2 : D2 ≠ []) :
    runsFrom q (blk D1 [m1] ++ (blk B [] ++ blk D2 [m2])) =
      [⟨q, q + D1.length, [m1]⟩,
       ⟨q + D1.length, q + D1.length + B.length, []⟩,
       ⟨q + D1.length + B.length, q + D1.length + B.length + D2.length, [m2]⟩] := by
  have hbd : ∀ a b, (blk B []).getLast? = some a → (blk D2 [m2]).head? = some b →
      a.marks ≠ b.marks := by
    intro a b ha hbh
    rw [getLast_marks_of_blk B [] a ha, head_marks_of_blk D2 [m2] b hbh]
    simp
  have hd1b : ∀ a b, (blk D1 [m1]).getLast? = some a →
      (blk B [] ++ blk D2 [m2]).head? = some b → a.marks ≠ b.marks := by
    intro a b ha hbh
    rw [head?_append_left _ _ (blk_ne_nil [] hbn)] at hbh
    rw [getLast_marks_of_blk D1 [m1] a ha, head_marks_of_blk B [] b hbh]
    simp
  have hmidne : blk B [] ++ blk D2 [m2] ≠ [] := by
    intro hcon
    exact absurd (List.append_eq_nil.mp hcon).1 (blk_ne_nil [] hbn)
  rw [runsFrom_append (blk D1 [m1]) (blk B [] ++ blk D2 [m2]) q
    (blk_ne_nil [m1] h1) hmidne hd1b]
  rw [runsFrom_blk D1 [m1] q h1, blk_length]
  rw [runsFrom_append (blk B []) (blk D2 [m2]) (q + D1.length)
    (blk_ne_nil [] hbn) (blk_ne_nil [m2] h2) hbd]
  rw [runsFrom_blk B [] _ hbn, blk_length, runsFrom_blk D2 [m2] _ h2]
  rfl

theorem runs_core_c (D1 B D2 C : List Char) (m1 m2 : TMark) (q : Nat)
    (h1 : D1 ≠ []) (hbn : B ≠ []) (h2 : D2 ≠ []) (hC : C ≠ []) :
    runsFrom q (blk D1 [m1] ++ (blk B [] ++ (blk D2 [m2] ++ blk C []))) =
      [⟨q, q + D1.length, [m1]⟩,
       ⟨q + D1.length, q + D1.length + B.length, []⟩,
       ⟨q + D1.length + B.length, q + D1.length + B.length + D2.length, [m2]⟩,
       ⟨q + D1.length + B.length + D2.length,
        q + D1.length + B.length + D2.length + C.length, []⟩] := by
  have hassoc : blk D1 [m1] ++ (blk B [] ++ (blk D2 [m2] ++ blk C [])) =
      (blk D1 [m1] ++ (blk B [] ++ blk D2 [m2])) ++ blk C [] := by
    simp [List.append_assoc]
  have hmidne : blk D1 [m1] ++ (blk B [] ++ blk D2 [m2]) ≠ [] := by
    intro hcon
    exact absurd (List.append_eq_nil.mp hcon).1 (blk_ne_nil [m1] h1)
  have hne1 : blk B [] ++ blk D2 [m2] ≠ [] := by
    intro hcon
    exact absurd (List.append_eq_nil.mp hcon).1 (blk_ne_nil [] hbn)
  have hbound : ∀ a b,
      (blk D1 [m1] ++ (blk B [] ++ blk D2 [m2])).getLast? = some a →
      (blk C []).head? = some b → a.marks ≠ b.marks := by
    intro a b ha hbh
    rw [getLast?_append_right _ _ hne1,
      getLast?_append_right _ _ (blk_ne_nil [m2] h2)] at ha
    rw [getLast_marks_of_blk D2 [m2] a ha, head_marks_of_blk C [] b hbh]
    simp
  rw [hassoc, runsFrom_append _ _ _ hmidne (blk_ne_nil [] hC) hbound]
  rw [runs_three D1 B D2 m1 m2 q h1 hbn h2, runsFrom_blk C [] _ hC]
  rw [show q + (blk D1 [m1] ++ (blk B [] ++ blk D2 [m2])).length =
      q + D1.length + B.length + D2.length from by
    simp [List.length_append, blk_length]
    omega]
  rfl

theorem runs_full_a (A : List Char) (core : Doc) (hA : A ≠ []) (hcore : core ≠ [])
    (hhead : ∀ b, core.head? = some b → b.marks ≠ []) :
    runsFrom 0 (blk A [] ++ core) = ⟨0, A.length, []⟩ :: runsFrom A.length core := by
  have hbound : ∀ a b, (blk A []).getLast? = some a → core.head? = some b →
      a.marks ≠ b.marks := by
    intro a b ha hb
    rw [getLast_marks_of_blk A [] a ha]
    intro hcon
    exact hhead b hb hcon.symm
  rw [runsFrom_append (blk A []) core 0 (blk_ne_nil [] hA) hcore hbound]
  rw [runsFrom_blk A [] 0 hA, blk_length]
  simp

theorem c2_finish (A B C D1 D2 : List Char) (a1 a2 : TrackAttrs) (sf stt : Nat)
    (hGMB : getMarksBetween 0
        (blk A [] ++ (blk D1 [TMark.deletion a1] ++
          (blk B [] ++ (blk D2 [TMark.deletion a2] ++ blk C [])))).length
        (blk A [] ++ (blk D1 [TMark.deletion a1] ++
          (blk B [] ++ (blk D2 [TMark.deletion a2] ++ blk C [])))) =
      [⟨TMark.deletion a1, A.length, A.length + D1.length⟩,
       ⟨TMark.deletion a2, A.length + D1.length + B.length,
        A.length + D1.length + B.length + D2.length⟩]) :
    (gatherRanges TRACK_COMMAND_ACCEPT_ALL
        ⟨blk A [] ++ (blk D1 [TMark.deletion a1] ++
          (blk B [] ++ (blk D2 [TMark.deletion a2] ++ blk C []))), sf, stt⟩).1.filter
        isTrackMarkRange =
      [⟨TMark.deletion a1, A.length, A.length + D1.length⟩,
       ⟨TMark.deletion a2, A.length + D1.length + B.length,
        A.length + D1.length + B.length + D2.length⟩] ∧
    (gatherRanges TRACK_COMMAND_ACCEPT_ALL
        ⟨blk A [] ++ (blk D1 [TMark.deletion a1] ++
          (blk B [] ++ (blk D2 [TMark.deletion a2] ++ blk C []))), sf, stt⟩).2 =
      TRACK_COMMAND_ACCEPT ∧
    changeTrack TRACK_COMMAND_ACCEPT_ALL
        ⟨blk A [] ++ (blk D1 [TMark.deletion a1] ++
          (blk B [] ++ (blk D2 [TMark.deletion a2] ++ blk C []))), sf, stt⟩ =
      ⟨blk A [] ++ (blk B [] ++ blk C []), 2, true, true⟩ := by
  have hga : gatherRanges TRACK_COMMAND_ACCEPT_ALL
      ⟨blk A [] ++ (blk D1 [TMark.deletion a1] ++
        (blk B [] ++ (blk D2 [TMark.deletion a2] ++ blk C []))), sf, stt⟩ =
      (getMarksBetween 0
        (blk A [] ++ (blk D1 [TMark.deletion a1] ++
          (blk B [] ++ (blk D2 [TMark.deletion a2] ++ blk C [])))).length
        (blk A [] ++ (blk D1 [TMark.deletion a1] ++
          (blk B [] ++ (blk D2 [TMark.deletion a2] ++ blk C [])))),
        TRACK_COMMAND_ACCEPT) := by
    simp [gatherRanges, TRACK_COMMAND_ACCEPT_ALL, TRACK_COMMAND_ACCEPT,
      TRACK_COMMAND_REJECT, TRACK_COMMAND_REJECT_ALL]
  have hfil : ([⟨TMark.deletion a1, A.length, A.length + D1.length⟩,
      ⟨TMark.deletion a2, A.length + D1.length + B.length,
        A.length + D1.length + B.length + D2.length⟩] : List MarkRange).filter
      isTrackMarkRange =
      [⟨TMark.deletion a1, A.length, A.length + D1.length⟩,
       ⟨TMark.deletion a2, A.length + D1.length + B.length,
        A.length + D1.length + B.length + D2.length⟩] := by
    simp [isTrackMarkRange, markName, MARK_DELETION, MARK_INSERTION]
  have hne1 : ¬((TRACK_COMMAND_ACCEPT = TRACK_COMMAND_ACCEPT ∧
      markName (TMark.deletion a1) = MARK_INSERTION) ∨
      (TRACK_COMMAND_ACCEPT = TRACK_COMMAND_REJECT ∧
      markName (TMark.deletion a1) = MARK_DELETION)) := by
    rintro (⟨-, hx⟩ | ⟨hx, -⟩)
    · simp [markName, MARK_DELETION, MARK_INSERTION] at hx
    · simp [TRACK_COMMAND_ACCEPT, TRACK_COMMAND_REJECT] at hx
  have hne2 : ¬((TRACK_COMMAND_ACCEPT = TRACK_COMMAND_ACCEPT ∧
      markName (TMark.deletion a2) = MARK_INSERTION) ∨
      (TRACK_COMMAND_ACCEPT = TRACK_COMMAND_REJECT ∧
      markName (TMark.deletion a2) = MARK_DELETION)) := by
    rintro (⟨-, hx⟩ | ⟨hx, -⟩)
    · simp [markName, MARK_DELETION, MARK_INSERTION] at hx
    · simp [TRACK_COMMAND_ACCEPT, TRACK_COMMAND_REJECT] at hx
  have hD1 : deleteRange A.length (A.length + D1.length)
      (blk A [] ++ (blk D1 [TMark.deletion a1] ++
        (blk B [] ++ (blk D2 [TMark.deletion a2] ++ blk C [])))) =
      blk A [] ++ (blk B [] ++ (blk D2 [TMark.deletion a2] ++ blk C [])) := by
    unfold deleteRange
    have ht : (blk A [] ++ (blk D1 [TMark.deletion a1] ++
        (blk B [] ++ (blk D2 [TMark.deletion a2] ++ blk C [])))).take A.length =
        blk A [] := List.take_left' (blk_length A [])
    have hd : (blk A [] ++ (blk D1 [TMark.deletion a1] ++
        (blk B [] ++ (blk D2 [TMark.deletion a2] ++ blk C [])))).drop
        (A.length + D1.length) =
        blk B [] ++ (blk D2 [TMark.deletion a2] ++ blk C []) := by
      rw [← List.append_assoc]
      refine List.drop_left' ?_
      rw [List.length_append, blk_length, blk_length]
    rw [ht, hd]
  have hD2 : deleteRange (A.length + B.length) (A.length + B.length + D2.length)
      (blk A [] ++ (blk B [] ++ (blk D2 [TMark.deletion a2] ++ blk C []))) =
      blk A [] ++ (blk B [] ++ blk C []) := by
    unfold deleteRange
    have ht : (blk A [] ++ (blk B [] ++ (blk D2 [TMark.deletion a2] ++
        blk C []))).take (A.length + B.length) = blk A [] ++ blk B [] := by
      rw [show blk A [] ++ (blk B [] ++ (blk D2 [TMark.deletion a2] ++ blk C [])) =
        (blk A [] ++ blk B []) ++ (blk D2 [TMark.deletion a2] ++ blk C []) from by
          simp [List.append_assoc]]
      refine List.take_left' ?_
      rw [List.length_append, blk_length, blk_length]
    have hd : (blk A [] ++ (blk B [] ++ (blk D2 [TMark.deletion a2] ++
        blk C []))).drop (A.length + B.length + D2.length) = blk C [] := by
      rw [show blk A [] ++ (blk B [] ++ (blk D2 [TMark.deletion a2] ++ blk C [])) =
        ((blk A [] ++ blk B []) ++ blk D2 [TMark.deletion a2]) ++ blk C [] from by
          simp [List.append_assoc]]
      refine List.drop_left' ?_
      rw [List.length_append, List.length_append, blk_length, blk_length, blk_length]
    rw [ht, hd, List.append_assoc]
  have hstep1 : applyRange TRACK_COMMAND_ACCEPT
      ⟨TMark.deletion a1, A.length, A.length + D1.length⟩
      (blk A [] ++ (blk D1 [TMark.deletion a1] ++
        (blk B [] ++ (blk D2 [TMark.deletion a2] ++ blk C [])))) 0 =
      (blk A [] ++ (blk B [] ++ (blk D2 [TMark.deletion a2] ++ blk C [])),
        D1.length, 1) := by
    rw [applyRange_delete _ _ _ _ hne1]
    simp only [Nat.sub_zero, Nat.zero_add, Nat.add_sub_cancel_left]
    rw [hD1]
  have hstep2 : applyRange TRACK_COMMAND_ACCEPT
      ⟨TMark.deletion a2, A.length + D1.length + B.length,
        A.length + D1.length + B.length + D2.length⟩
      (blk A [] ++ (blk B [] ++ (blk D2 [TMark.deletion a2] ++ blk C [])))
      D1.length =
      (blk A [] ++ (blk B [] ++ blk C []), D1.length + D2.length, 1) := by
    rw [applyRange_delete _ _ _ _ hne2]
    rw [show A.length + D1.length + B.length - D1.length = A.length + B.length from by
      omega]
    rw [show A.length + D1.length + B.length + D2.length - D1.length =
      A.length + B.length + D2.length from by omega]
    rw [hD2]
    rw [show A.length + D1.length + B.length + D2.length -
      (A.length + D1.length + B.length) = D2.length from by omega]
  have happ : applyRanges TRACK_COMMAND_ACCEPT
      [⟨TMark.deletion a1, A.length, A.length + D1.length⟩,
       ⟨TMark.deletion a2, A.length + D1.length + B.length,
        A.length + D1.length + B.length + D2.length⟩]
      (blk A [] ++ (blk D1 [TMark.deletion a1] ++
        (blk B [] ++ (blk D2 [TMark.deletion a2] ++ blk C [])))) 0 0 =
      (blk A [] ++ (blk B [] ++ blk C []), D1.length + D2.length, 2) := by
    simp only [applyRanges]
    rw [hstep1]
    rw [hstep2]
    norm_num
  refine ⟨?_, ?_, ?_⟩
  · rw [hga]
    dsimp only
    rw [hGMB]
    exact hfil
  · rw [hga]
  · simp only [changeTrack, hga]
    rw [hGMB, hfil]
    simp only [List.isEmpty_cons, Bool.false_eq_true, if_false]
    rw [happ]
    rfl

theorem gmb_eval (doc : Doc) (runs : List Run) (hruns : runsFrom 0 doc = runs)
    (hall : ∀ r ∈ runs, r.start < doc.length ∧ 0 < r.stop) :
    getMarksBetween 0 doc.length doc =
      runs.flatMap (fun r => r.marks.map (fun m => ⟨m, r.start, r.stop⟩)) := by
  unfold getMarksBetween
  rw [hruns, List.filter_eq_self.mpr (fun r hr => decide_eq_true (hall r hr))]

/-- C2: bulk-accepting a document made of two non-adjacent deletion runs
separated and surrounded by unmarked content gathers exactly the two runs
in ascending order, demotes the operation to a plain accept, removes both
ranges with the running offset correction, and leaves the document equal to
the unmarked content in original order, its size smaller by the sum of the
two runs' lengths. -/
theorem c2_offset_bookkeeping :
    ∀ (A B C D1 D2 : List Char) (a1 a2 : TrackAttrs) (sf stt : Nat),
      D1 ≠ [] → D2 ≠ [] → B ≠ [] →
      ((gatherRanges TRACK_COMMAND_ACCEPT_ALL
          ⟨blk A [] ++ (blk D1 [TMark.deletion a1] ++
            (blk B [] ++ (blk D2 [TMark.deletion a2] ++ blk C []))), sf, stt⟩).1.filter
          isTrackMarkRange =
        [⟨TMark.deletion a1, A.length, A.length + D1.length⟩,
         ⟨TMark.deletion a2, A.length + D1.length + B.length,
          A.length + D1.length + B.length + D2.length⟩]) ∧
      (gatherRanges TRACK_COMMAND_ACCEPT_ALL
          ⟨blk A [] ++ (blk D1 [TMark.deletion a1] ++
            (blk B [] ++ (blk D2 [TMark.deletion a2] ++ blk C []))), sf, stt⟩).2 =
        TRACK_COMMAND_ACCEPT ∧
      changeTrack TRACK_COMMAND_ACCEPT_ALL
          ⟨blk A [] ++ (blk D1 [TMark.deletion a1] ++
            (blk B [] ++ (blk D2 [TMark.deletion a2] ++ blk C []))), sf, stt⟩ =
        ⟨blk A [] ++ (blk B [] ++ blk C []), 2, true, true⟩ ∧
      (changeTrack TRACK_COMMAND_ACCEPT_ALL
          ⟨blk A [] ++ (blk D1 [TMark.deletion a1] ++
            (blk B [] ++ (blk D2 [TMark.deletion a2] ++ blk C []))), sf, stt⟩).doc.length =
        (blk A [] ++ (blk D1 [TMark.deletion a1] ++
          (blk B [] ++ (blk D2 [TMark.deletion a2] ++ blk C [])))).length -
          (D1.length + D2.length) := by
  intro A B C D1 D2 a1 a2 sf stt hd1 hd2 hbn
  have hp1 : 0 < D1.length := List.length_pos.mpr hd1
  have hp2 : 0 < D2.length := List.length_pos.mpr hd2
  have hpb : 0 < B.length := List.length_pos.mpr hbn
  have hheadcore : ∀ b,
      (blk D1 [TMark.deletion a1] ++
        (blk B [] ++ (blk D2 [TMark.deletion a2] ++ blk C []))).head? = some b →
      b.marks ≠ [] := by
    intro b hb
    rw [head?_append_left _ _ (blk_ne_nil [TMark.deletion a1] hd1)] at hb
    rw [head_marks_of_blk D1 [TMark.deletion a1] b hb]
    simp
  have hcorene : blk D1 [TMark.deletion a1] ++
      (blk B [] ++ (blk D2 [TMark.deletion a2] ++ blk C [])) ≠ [] := by
    intro hcon
    exact absurd (List.append_eq_nil.mp hcon).1 (blk_ne_nil [TMark.deletion a1] hd1)
  have hlenfull : (blk A [] ++ (blk D1 [TMark.deletion a1] ++
      (blk B [] ++ (blk D2 [TMark.deletion a2] ++ blk C [])))).length =
      A.length + (D1.length + (B.length + (D2.length + C.length))) := by
    simp [List.length_append, blk_length]
  have hGMB : getMarksBetween 0
      (blk A [] ++ (blk D1 [TMark.deletion a1] ++
        (blk B [] ++ (blk D2 [TMark.deletion a2] ++ blk C [])))).length
      (blk A [] ++ (blk D1 [TMark.deletion a1] ++
        (blk B [] ++ (blk D2 [TMark.deletion a2] ++ blk C [])))) =
      [⟨TMark.deletion a1, A.length, A.length + D1.length⟩,
       ⟨TMark.deletion a2, A.length + D1.length + B.length,
        A.length + D1.length + B.length + D2.length⟩] := by
    by_cases hA : A = [] <;> by_cases hC : C = []
    · subst hA
      subst hC
      have hruns : runsFrom 0
          (blk ([] : List Char) [] ++ (blk D1 [TMark.deletion a1] ++
            (blk B [] ++ (blk D2 [TMark.deletion a2] ++ blk ([] : List Char) [])))) =
          [⟨0, 0 + D1.length, [TMark.deletion a1]⟩,
           ⟨0 + D1.length, 0 + D1.length + B.length, []⟩,
           ⟨0 + D1.length + B.length, 0 + D1.length + B.length + D2.length,
            [TMark.deletion a2]⟩] := by
        rw [show blk ([] : List Char) [] = ([] : Doc) from rfl]
        rw [List.nil_append, List.append_nil]
        exact runs_three D1 B D2 (TMark.deletion a1) (TMark.deletion a2) 0 hd1 hbn hd2
      rw [gmb_eval _ _ hruns ?_]
      · simp only [List.flatMap_cons, List.flatMap_nil, List.map_cons, List.map_nil,
          List.nil_append, List.append_nil, List.cons_append]
        simp [List.cons.injEq, MarkRange.mk.injEq]
      · intro r hr
        rw [hlenfull]
        simp only [List.mem_cons, List.not_mem_nil, or_false] at hr
        rcases hr with h | h | h <;> subst h <;> constructor <;> simp <;> omega
    · subst hA
      have hpc : 0 < C.length := List.length_pos.mpr hC
      have hruns : runsFrom 0
          (blk ([] : List Char) [] ++ (blk D1 [TMark.deletion a1] ++
            (blk B [] ++ (blk D2 [TMark.deletion a2] ++ blk C [])))) =
          [⟨0, 0 + D1.length, [TMark.deletion a1]⟩,
           ⟨0 + D1.length, 0 + D1.length + B.length, []⟩,
           ⟨0 + D1.length + B.length, 0 + D1.length + B.length + D2.length,
            [TMark.deletion a2]⟩,
           ⟨0 + D1.length + B.length + D2.length,
            0 + D1.length + B.length + D2.length + C.length, []⟩] := by
        rw [show blk ([] : List Char) [] = ([] : Doc) from rfl]
        rw [List.nil_append]
        exact runs_core_c D1 B D2 C (TMark.deletion a1) (TMark.deletion a2) 0
          hd1 hbn hd2 hC
      rw [gmb_eval _ _ hruns ?_]
      · simp only [List.flatMap_cons, List.flatMap_nil, List.map_cons, List.map_nil,
          List.nil_append, List.append_nil, List.cons_append]
        simp [List.cons.injEq, MarkRange.mk.injEq]
      · intro r hr
        rw [hlenfull]
        simp only [List.mem_cons, List.not_mem_nil, or_false] at hr
        rcases hr with h | h | h | h <;> subst h <;> constructor <;> simp <;> omega
    · subst hC
      have hA' := hA
      have hpa : 0 < A.length := List.length_pos.mpr hA
      have hruns : runsFrom 0
          (blk A [] ++ (blk D1 [TMark.deletion a1] ++
            (blk B [] ++ (blk D2 [TMark.deletion a2] ++ blk ([] : List Char) [])))) =
          ⟨0, A.length, []⟩ ::
          [⟨A.length, A.length + D1.length, [TMark.deletion a1]⟩,
           ⟨A.length + D1.length, A.length + D1.length + B.length, []⟩,
           ⟨A.length + D1.length + B.length,
            A.length + D1.length + B.length + D2.length, [TMark.deletion a2]⟩] := by
        rw [runs_full_a A _ hA' hcorene hheadcore]
        rw [show blk ([] : List Char) [] = ([] : Doc) from rfl, List.append_nil]
        rw [runs_three D1 B D2 (TMark.deletion a1) (TMark.deletion a2) A.length
          hd1 hbn hd2]
      rw [gmb_eval _ _ hruns ?_]
      · simp only [List.flatMap_cons, List.flatMap_nil, List.map_cons, List.map_nil,
          List.nil_append, List.append_nil, List.cons_append]
      · intro r hr
        rw [hlenfull]
        simp only [List.mem_cons, List.not_mem_nil, or_false] at hr
        rcases hr with h | h | h | h <;> subst h <;> constructor <;> simp <;> omega
    · have hA' := hA
      have hpa : 0 < A.length := List.length_pos.mpr hA
      have hpc : 0 < C.length := List.length_pos.mpr hC
      have hruns : runsFrom 0
          (blk A [] ++ (blk D1 [TMark.deletion a1] ++
            (blk B [] ++ (blk D2 [TMark.deletion a2] ++ blk C [])))) =
          ⟨0, A.length, []⟩ ::
          [⟨A.length, A.length + D1.length, [TMark.deletion a1]⟩,
           ⟨A.length + D1.length, A.length + D1.length + B.length, []⟩,
           ⟨A.length + D1.length + B.length,
            A.length + D1.length + B.length + D2.length, [TMark.deletion a2]⟩,
           ⟨A.length + D1.length + B.length + D2.length,
            A.length + D1.length + B.length + D2.length + C.length, []⟩] := by
        rw [runs_full_a A _ hA' hcorene hheadcore]
        rw [runs_core_c D1 B D2 C (TMark.deletion a1) (TMark.deletion a2) A.length
          hd1 hbn hd2 hC]
      rw [gmb_eval _ _ hruns ?_]
      · simp only [List.flatMap_cons, List.flatMap_nil, List.map_cons, List.map_nil,
          List.nil_append, List.append_nil, List.cons_append]
      · intro r hr
        rw [hlenfull]
        simp only [List.mem_cons, List.not_mem_nil, or_false] at hr
        rcases hr with h | h | h | h | h <;> subst h <;> constructor <;> simp <;> omega
  obtain ⟨hc1, hc2, hc3⟩ := c2_finish A B C D1 D2 a1 a2 sf stt hGMB
  refine ⟨hc1, hc2, hc3, ?_⟩
  rw [hc3, hlenfull]
  simp [List.length_append, blk_length]
  omega

/-- Witness for C2: bulk accept on a nine-character document with two
two-character deletion runs removes exactly both runs. -/
theorem c2_offset_bookkeeping_witness :
    changeTrack TRACK_COMMAND_ACCEPT_ALL
        ⟨blk "xy".data [] ++ (blk "ab".data [TMark.deletion ⟨some "u", some "U", 0⟩] ++
          (blk "m".data [] ++ (blk "cd".data [TMark.deletion ⟨some "u", some "U", 0⟩] ++
            blk "z".data []))), 0, 0⟩ =
      ⟨blk "xy".data [] ++ (blk "m".data [] ++ blk "z".data []), 2, true, true⟩ :=
  (c2_offset_bookkeeping "xy".data "m".data "z".data "ab".data "cd".data
    ⟨some "u", some "U", 0⟩ ⟨some "u", some "U", 0⟩ 0 0
    (by decide) (by decide) (by decide)).2.2.1

/-- C7: the composition status has no influence on the interceptor: even
with composingStatus at IME_STATUS_CONTINUE (an input-method composition in
progress), a plain one-character tracked insertion still produces a
corrective change in both source variants, because appendTransaction never
consults the composition state. -/
theorem c7_interceptor_not_suppressed_during_composition :
    (IndexTs.appendTransaction IME_STATUS_CONTINUE
        ⟨true, some "u1", some "Alice"⟩ 0
        [⟨true, false, false, false, [⟨0, 0, [⟨'a', []⟩]⟩], [[]]⟩]
        [⟨'a', []⟩]).isSome = true ∧
    (Part000.appendTransaction IME_STATUS_CONTINUE
        ⟨true, some "u1", some "Alice"⟩ 0
        [⟨true, false, false, false, [⟨0, 0, [⟨'a', []⟩]⟩], [[]]⟩]
        [⟨'a', []⟩]).isSome = true := by
  constructor <;> rfl

/-- C4: every transaction flagged trackManualChanged, history or y-sync
change-origin fails the relevance filter; when every incoming transaction
carries such a flag appendTransaction returns none, and any corrective
transaction it does emit carries the trackManualChanged flag itself. -/
theorem c4_self_suppression :
    (∀ tx : PmTransaction,
        (tx.metaTrackManualChanged = true ∨ tx.metaHistory = true ∨
          tx.metaYSyncChangeOrigin = true) →
        IndexTs.isRelevant tx = false) ∧
    (∀ (cs : Nat) (opts : ExtOptions) (now : Nat) (txs : List PmTransaction)
        (newDoc : Doc),
        (∀ tx ∈ txs, tx.metaTrackManualChanged = true ∨ tx.metaHistory = true ∨
          tx.metaYSyncChangeOrigin = true) →
        IndexTs.appendTransaction cs opts now txs newDoc = none) ∧
    (∀ (cs : Nat) (opts : ExtOptions) (now : Nat) (txs : List PmTransaction)
        (newDoc : Doc) (ctr : CorrectiveTr),
        IndexTs.appendTransaction cs opts now txs newDoc = some ctr →
        ctr.metaTrackManualChanged = true) := by
  have hrel : ∀ tx : PmTransaction,
      (tx.metaTrackManualChanged = true ∨ tx.metaHistory = true ∨
        tx.metaYSyncChangeOrigin = true) → IndexTs.isRelevant tx = false := by
    intro tx h
    unfold IndexTs.isRelevant
    rcases h with h | h | h <;> simp [h]
  refine ⟨hrel, ?_, ?_⟩
  · intro cs opts now txs newDoc h
    have hfil : txs.filter IndexTs.isRelevant = [] := by
      rw [List.filter_eq_nil_iff]
      intro tx htx
      simp [hrel tx (h tx htx)]
    unfold IndexTs.appendTransaction
    simp [hfil]
  · intro cs opts now txs newDoc ctr h
    simp only [IndexTs.appendTransaction] at h
    split at h
    · exact absurd h (by simp)
    · split at h
      · cases h
        rfl
      · exact absurd h (by simp)

/-- Witness for C4: a batch made of one self-originated and one history
transaction produces no corrective change. -/
theorem c4_self_suppression_witness :
    IndexTs.appendTransaction 0 ⟨true, none, none⟩ 0
      [⟨true, true, false, false, [⟨0, 0, [⟨'a', []⟩]⟩], [[]]⟩,
        ⟨true, false, true, false, [], []⟩] [] = none := by
  refine c4_self_suppression.2.1 0 ⟨true, none, none⟩ 0 _ [] ?_
  intro tx htx
  rcases htx with _ | ⟨_, htx⟩
  · exact Or.inl rfl
  · rcases htx with _ | ⟨_, htx⟩
    · exact Or.inr (Or.inl rfl)
    · cases htx

end TrackChange
